import Mathlib

/-!
Verification of the pypsrp wire-protocol core: the WinRM message-encryption
framing layer (`pypsrp/encryption.py`) and the .NET typed-value / enum codec
model (`pypsrp/dotnet.py`).

Byte strings are modelled as `List Nat` (one `Nat` per byte); Python `str`
values that only flow through framing are modelled as Lean `String` /
`List Char`.  Fallible operations return `Option` / `Except`.
-/

/-- A byte string, one `Nat` per byte (all values produced are < 256). -/
abbrev Bytes := List Nat

/-- UTF-8/ASCII bytes of a string literal (mirrors `pypsrp._utils.to_bytes`
for the ASCII text used by the framing layer). -/
def strBytes (s : String) : Bytes := s.toList.map Char.toNat

/-! ### Generic sequence utilities

`splitOnSeq` and `replaceSeq` mirror Python `bytes.split` / `bytes.replace`
(leftmost, non-overlapping occurrences).  Both are implemented with an
explicit fuel argument (the list length) so that they are structurally
recursive and reduce inside the kernel. -/

/-- Fueled worker for `splitOnSeq`. -/
def splitOnAux [DecidableEq α] (sep : List α) : Nat → List α → List (List α)
  | _, [] => [[]]
  | 0, s => [s]
  | Nat.succ f, c :: rest =>
    if sep <+: (c :: rest) then
      [] :: splitOnAux sep f (List.drop (sep.length - 1) rest)
    else
      match splitOnAux sep f rest with
      | [] => [[c]]
      | t :: ts => (c :: t) :: ts

/-- Python's `s.split(sep)` for a non-empty separator. -/
def splitOnSeq [DecidableEq α] (sep s : List α) : List (List α) :=
  splitOnAux sep s.length s

/-- Fueled worker for `replaceSeq`. -/
def replaceAux [DecidableEq α] (pat repl : List α) : Nat → List α → List α
  | _, [] => []
  | 0, s => s
  | Nat.succ f, c :: rest =>
    if pat <+: (c :: rest) then
      repl ++ replaceAux pat repl f (List.drop (pat.length - 1) rest)
    else
      c :: replaceAux pat repl f rest

/-- Python's `s.replace(pat, repl)` for a non-empty pattern. -/
def replaceSeq [DecidableEq α] (pat repl s : List α) : List α :=
  replaceAux pat repl s.length s

/-- Python's `pat in s` substring test. -/
def containsSeq [DecidableEq α] (pat : List α) : List α → Bool
  | [] => pat.isEmpty
  | c :: rest => decide (pat <+: (c :: rest)) || containsSeq pat rest

/-- Remove elements satisfying `p` from both ends (Python `strip`). -/
def trimEnds (p : α → Bool) (l : List α) : List α :=
  ((l.dropWhile p).reverse.dropWhile p).reverse

/-- ASCII whitespace as stripped by Python `bytes.strip()`. -/
def isSpaceB (b : Nat) : Bool :=
  b = 32 || b = 9 || b = 10 || b = 13 || b = 11 || b = 12

/-- Python `bytes.strip()`. -/
def stripB (s : Bytes) : Bytes := trimEnds isSpaceB s

/-! ### Decimal rendering and parsing -/

/-- Little-endian decimal digits of `n` (ASCII), with fuel. -/
def natDigitsRev : Nat → Nat → Bytes
  | _, 0 => []
  | 0, _ => []
  | Nat.succ f, Nat.succ m => (48 + (m + 1) % 10) :: natDigitsRev f ((m + 1) / 10)

/-- ASCII decimal rendering of `n` (Python `b"%d" % n` / `str(n)`). -/
def natToBytes (n : Nat) : Bytes :=
  if n = 0 then [48] else (natDigitsRev n n).reverse

/-- Python `int(bytes)` restricted to plain digit strings; anything else
(`b""`, non-digits) raises `ValueError`, modelled as `none`. -/
def parseNatB (s : Bytes) : Option Nat :=
  if s = [] then none
  else s.foldl
    (fun acc b => acc.bind fun a =>
      if 48 ≤ b ∧ b ≤ 57 then some (a * 10 + (b - 48)) else none)
    (some 0)

/-- Python `str(n)` for a natural number. -/
def natToString (n : Nat) : String :=
  String.mk ((natToBytes n).map Char.ofNat)

/-! ### 4-byte little-endian length fields (`struct.pack("<i", n)`) -/

/-- `struct.pack("<i", n)` for `0 ≤ n < 2^31`. -/
def packI32LE (n : Nat) : Bytes :=
  [n % 256, n / 256 % 256, n / 65536 % 256, n / 16777216 % 256]

/-- `struct.unpack("<i", data[:4])[0]` for the non-negative values produced
by the wrap step; fails (struct.error) when fewer than 4 bytes remain. -/
def unpackI32LE : Bytes → Option Nat
  | b0 :: b1 :: b2 :: b3 :: _ => some (b0 + 256 * b1 + 65536 * b2 + 16777216 * b3)
  | _ => none

/-! ### CredSSP trailer computation (`WinRMEncryption._credssp_trailer`) -/

/-- `\w` (and `\d`) of Python's `re` for ASCII input. -/
def wordChar (c : Char) : Bool := c.isAlphanum || c = '_'

/-- Does the remainder after `-GCM-` match `[\w\d]*$`?  (`$` also matches
just before a final newline.) -/
def gcmTailOk (l : List Char) : Bool :=
  l.all wordChar ||
    (match l.getLast? with
     | some x => x = '\n' && l.dropLast.all wordChar
     | none => false)

/-- `re.match(r'^.*-GCM-[\w\d]*$', s)` as a Bool: some newline-free prefix
is followed by `-GCM-` and a word-character tail. -/
def matchesGCM : List Char → Bool
  | [] => false
  | c :: rest =>
    (decide (("-GCM-".toList) <+: (c :: rest)) && gcmTailOk ((c :: rest).drop 5)) ||
    (!(c = '\n') && matchesGCM rest)

/-- `WinRMEncryption._credssp_trailer(msg_len, cipher_suite)`. -/
def credssp_trailer (msgLen : Nat) (cipher : List Char) : Nat :=
  if matchesGCM cipher then 16
  else
    let hashAlg := (splitOnSeq ['-'] cipher).getLastD []
    let hashLength :=
      if hashAlg = "MD5".toList then 16
      else if hashAlg = "SHA".toList then 20
      else if hashAlg = "SHA256".toList then 32
      else if hashAlg = "SHA384".toList then 48
      else 0
    let prePad := msgLen + hashLength
    let padding :=
      if containsSeq ("RC4".toList) cipher then 0
      else if containsSeq ("DES".toList) cipher || containsSeq ("3DES".toList) cipher then
        8 - prePad % 8
      else 16 - prePad % 16
    (prePad + padding) - msgLen

/-- The trailer length as described by the specification text (claim C2):
GCM-pattern suites give 16; otherwise hash length from the trailing
hash-algorithm token, `pre_pad = len + hash`, block padding by cipher
family, trailer = `(pre_pad + padding) - len`. -/
def specTrailer (msgLen : Nat) (cipher : List Char) : Nat :=
  if matchesGCM cipher then 16
  else
    let token := (splitOnSeq ['-'] cipher).getLastD []
    let hashLength :=
      if token = "MD5".toList then 16
      else if token = "SHA".toList then 20
      else if token = "SHA256".toList then 32
      else if token = "SHA384".toList then 48
      else 0
    let prePad := msgLen + hashLength
    let padding :=
      if containsSeq ("RC4".toList) cipher then 0
      else if containsSeq ("DES".toList) cipher then 8 - prePad % 8
      else 16 - prePad % 16
    (prePad + padding) - msgLen

/-! ### WinRM encryption framing (`WinRMEncryption`) -/

/-- `WinRMEncryption.SPNEGO` protocol token. -/
def SPNEGO_CT : String := "application/HTTP-SPNEGO-session-encrypted"

/-- `WinRMEncryption.CREDSSP` protocol token. -/
def CREDSSP_CT : String := "application/HTTP-CredSSP-session-encrypted"

/-- `"--Encrypted Boundary\r\n"`: the separator `unwrap_message` splits on. -/
def sepB : Bytes := strBytes ("--Encrypted Boundary\r\n")

/-- `"--Encrypted Boundary--\r\n"`: the 24-byte terminator appended by
`wrap_message` and stripped by `unwrap_message`. -/
def termB : Bytes := strBytes ("--Encrypted Boundary--\r\n")

/-- `"\tContent-Type: application/octet-stream\r\n"`: the per-chunk binary
content-type marker removed (all occurrences) during unwrap. -/
def octetMarker : Bytes := strBytes ("\tContent-Type: application/octet-stream\r\n")

/-- The per-host security context handle supplied by the (external)
registry.  It bundles the capabilities the framer consumes: the SPNEGO-style
wrap returning `(header, ciphertext)`, its inverse, the CredSSP-style wrap
returning ciphertext, its inverse, and the negotiated TLS cipher-suite name. -/
structure HostContext where
  swrap : Bytes → Bytes × Bytes
  sunwrap : Bytes → Bytes → Bytes
  cwrap : Bytes → Bytes
  cunwrap : Bytes → Bytes
  cipherName : List Char

/-- `_wrap_spnego` / `_wrap_credssp`: the framed per-chunk binary blob
(4-byte little-endian length, then header blob if SPNEGO, then ciphertext). -/
def wrapRaw (protocol : String) (ctx : HostContext) (data : Bytes) : Bytes :=
  if protocol = SPNEGO_CT then
    let hw := ctx.swrap data
    packI32LE hw.1.length ++ hw.1 ++ hw.2
  else
    packI32LE (credssp_trailer data.length ctx.cipherName) ++ ctx.cwrap data

/-- `_unwrap_spnego` / `_unwrap_credssp`. -/
def unwrapRaw (protocol : String) (ctx : HostContext) (data : Bytes) : Option Bytes :=
  if protocol = SPNEGO_CT then
    match unpackI32LE data with
    | none => none
    | some hl => some (ctx.sunwrap ((data.drop 4).take hl) ((data.drop 4).drop hl))
  else some (ctx.cunwrap (data.drop 4))

/-- Fueled worker for `chunksOf`. -/
def chunksAux : Nat → Bytes → List Bytes
  | _, [] => []
  | 0, s => [s]
  | Nat.succ f, c :: rest => (c :: rest).take 16384 :: chunksAux f ((c :: rest).drop 16384)

/-- `[message[i:i + SIXTEEN_KB] for i in range(0, len(message), SIXTEEN_KB)]`. -/
def chunksOf (m : Bytes) : List Bytes := chunksAux m.length m

/-- The header block of `_wrap_message` between the two boundary lines
(the `"\r\n".join` contributes the line breaks):
`"\tContent-Type: <protocol>\r\n\tOriginalContent: ...;Length=<n>\r\n"`. -/
def hdrTail (protocol : String) (n : Nat) : Bytes :=
  strBytes ("\tContent-Type: ") ++ strBytes protocol ++
    strBytes ("\r\n\tOriginalContent: type=application/soap+xml;charset=UTF-8;Length=") ++
    natToBytes n ++ strBytes ("\r\n")

/-- The text of the stripped header up to (excluding) the `Length=` marker. -/
def hdrA (protocol : String) : Bytes :=
  strBytes ("Content-Type: ") ++ strBytes protocol ++
    strBytes ("\r\n\tOriginalContent: type=application/soap+xml;charset=UTF-8;")

/-- `b"Length="`, the field marker `unwrap_message` splits the header on. -/
def lenPat : Bytes := strBytes ("Length=")

/-- `WinRMEncryption._wrap_message(message)`: boundary, mechanism header with
declared plaintext length, boundary, octet-stream marker, framed blob. -/
def wrap_message_chunk (protocol : String) (ctx : HostContext) (chunk : Bytes) : Bytes :=
  sepB ++ hdrTail protocol chunk.length ++ sepB ++ octetMarker ++ wrapRaw protocol ctx chunk

/-- `WinRMEncryption.wrap_message`: returns `(content_type, framed bytes)`. -/
def wrap_message (protocol : String) (ctx : HostContext) (message : Bytes) :
    String × Bytes :=
  if protocol = CREDSSP_CT ∧ 16384 < message.length then
    ("multipart/x-multi-encrypted",
      ((chunksOf message).map (wrap_message_chunk protocol ctx)).flatten ++ termB)
  else
    ("multipart/encrypted", wrap_message_chunk protocol ctx message ++ termB)

/-- Errors surfaced by `unwrap_message`: `lengthMismatch` models the
`WinRMError` carrying the actual and expected plaintext lengths; `malformed`
models the `IndexError` / `ValueError` / `struct.error` raised on frames
that do not parse. -/
inductive UnwrapError
  | malformed
  | lengthMismatch (actual : Nat) (expected : Nat)
deriving DecidableEq

deriving instance DecidableEq for Except

/-- `int(header.split(b"Length=")[1])`. -/
def lengthField (h : Bytes) : Option Nat :=
  match splitOnSeq (strBytes ("Length=")) h with
  | _ :: second :: _ => parseNatB second
  | _ => none

/-- The body of `unwrap_message`'s loop over `(header, payload)` part pairs:
parse the declared length, strip the trailing terminator block if present,
delete every octet-stream marker occurrence, unwrap, check the length,
concatenate. -/
def processParts (protocol : String) (ctx : HostContext) :
    List Bytes → Except UnwrapError Bytes
  | [] => .ok []
  | [_] => .error .malformed
  | header :: payload :: rest =>
    match lengthField (stripB header) with
    | none => .error .malformed
    | some expected =>
      let payload' := if termB <:+ payload then payload.take (payload.length - 24) else payload
      let wrapped := replaceSeq octetMarker [] payload'
      match unwrapRaw protocol ctx wrapped with
      | none => .error .malformed
      | some u =>
        if u.length ≠ expected then .error (.lengthMismatch u.length expected)
        else (processParts protocol ctx rest).map (u ++ ·)

/-- `WinRMEncryption.unwrap_message`. -/
def unwrap_message (protocol : String) (ctx : HostContext) (message : Bytes) :
    Except UnwrapError Bytes :=
  processParts protocol ctx ((splitOnSeq sepB message).filter (fun p => p ≠ []))

/-! ### Abstract envelopes (used to state the unwrap claims) -/

/-- The framed envelope body built from declared-length / binary-blob pairs;
`wrap_message` emits exactly this shape.  A full envelope is
`envBody protocol L ++ termB`. -/
def envBody (protocol : String) (L : List (Nat × Bytes)) : Bytes :=
  (L.map (fun p => sepB ++ hdrTail protocol p.1 ++ sepB ++ octetMarker ++ p.2)).flatten

/-- The part list `unwrap_message` recovers from such an envelope. -/
def rawParts (protocol : String) : List (Nat × Bytes) → List Bytes
  | [] => []
  | [(n, w)] => [hdrTail protocol n, octetMarker ++ w ++ termB]
  | (n, w) :: rest => hdrTail protocol n :: (octetMarker ++ w) :: rawParts protocol rest

/-- Reference chunk-by-chunk processing: unwrap each blob, compare the
recovered length with the declared one, concatenate in order. -/
def processChunks (protocol : String) (ctx : HostContext) :
    List (Nat × Bytes) → Except UnwrapError Bytes
  | [] => .ok []
  | (n, w) :: rest =>
    match unwrapRaw protocol ctx w with
    | none => .error .malformed
    | some u =>
      if u.length ≠ n then .error (.lengthMismatch u.length n)
      else (processChunks protocol ctx rest).map (u ++ ·)

/-- Hygiene of a per-chunk binary blob: no `'-'` (0x2D) or `'\t'` (0x09)
byte, and at least the 4-byte length field.  Blobs violating this can
collide with the MIME boundary or the octet-stream marker during unwrap. -/
def wHyg (w : Bytes) : Prop := ¬ 45 ∈ w ∧ ¬ 9 ∈ w ∧ 4 ≤ w.length

/-- `true` iff no two adjacent bytes are both `'-'` (0x2D); such a pair is
necessary for an occurrence of the MIME boundary to start. -/
def noPair45 : Bytes → Bool
  | x :: y :: rest => !(x = 45 && y = 45) && noPair45 (y :: rest)
  | _ => true

/-- No occurrence of `pat` starts anywhere in `s`. -/
def noOcc (pat s : Bytes) : Prop := ∀ i, ¬ pat <+: s.drop i

/-- No occurrence of `pat` starts strictly inside `a` when `a` is directly
followed by `pat` (so by `a ++ pat ++ b` for any `b`). -/
def noStart (pat a : Bytes) : Prop := ∀ i, i < a.length → ¬ pat <+: (a ++ pat).drop i

/-- Bounded, decidable version of `noOcc` for concrete byte strings. -/
def noOccB (pat s : Bytes) : Bool :=
  (List.range s.length).all fun i => !(decide (pat <+: s.drop i))

/-- A host context whose wrap is the identity (SPNEGO header empty,
ciphertext = plaintext); its unwrap is the exact inverse of its wrap. -/
def idCtx : HostContext :=
  { swrap := fun d => ([], d)
    sunwrap := fun _ d => d
    cwrap := id
    cunwrap := id
    cipherName := [] }

/-- A cipher that shifts every byte value up by 256 (legal in this model,
where a byte is an unbounded `Nat`): its image avoids `'-'` (0x2D) and
`'\t'` (0x09), so wrapped blobs built from it satisfy `wHyg`, and it is
exactly invertible. -/
def shiftEnc (d : Bytes) : Bytes := d.map (fun b => b + 256)

/-- Inverse of `shiftEnc`. -/
def shiftDec (d : Bytes) : Bytes := d.map (fun b => b - 256)

/-- A host context with inverse wrap/unwrap whose blobs satisfy `wHyg`. -/
def shiftCtx : HostContext :=
  { swrap := fun d => ([], shiftEnc d)
    sunwrap := fun _ d => shiftDec d
    cwrap := shiftEnc
    cunwrap := shiftDec
    cipherName := "ECDHE-RSA-AES256-GCM-SHA384".toList }

/-! ### .NET typed-value model (`pypsrp/dotnet.py`) -/

/-- `PSPropertyInfo`: serialization metadata of one property. -/
structure PSPropertyInfo where
  name : Option String
  clixml_name : Option String
  optional : Bool
  ps_type : Option String
deriving DecidableEq

/-- `PSObjectMeta`: explicit serialization metadata attached to a PSObject. -/
structure PSObjectMeta where
  adapted_properties : List PSPropertyInfo
  extended_properties : List PSPropertyInfo
  to_string : Option String
  type_names : List String
deriving DecidableEq

/-- `PSObjectMeta.__init__`: all lists empty, no cached rendering. -/
def PSObjectMeta.init : PSObjectMeta :=
  { adapted_properties := []
    extended_properties := []
    to_string := none
    type_names := [] }

/-- The metadata installed by `PSEnumBase.__init__(value, type_name)`. -/
def psEnumInitMeta (type_name : String) : PSObjectMeta :=
  { PSObjectMeta.init with
      type_names := [type_name, "System.Enum", "System.ValueType", "System.Object"] }

/-- `PSGuid`: a GUID value (the 128-bit integer behind `uuid.UUID`) together
with its `psobject` attribute slot. -/
structure PSGuid where
  uuidVal : Nat
  psobject : PSObjectMeta
deriving DecidableEq

/-- `PSGuid.__setattr__`: `psobject` is written straight into the instance
dictionary; every other attribute falls through to `UUID.__setattr__`,
which always raises `TypeError("UUID objects are immutable")`. -/
def PSGuid.setattr (g : PSGuid) (name : String) (value : PSObjectMeta) :
    Except String PSGuid :=
  if name = "psobject" then .ok { g with psobject := value }
  else .error "UUID objects are immutable"

/-- Python whitespace stripped by `str.strip()` (ASCII fragment). -/
def isPySpace (c : Char) : Bool :=
  c = ' ' || c = '\t' || c = '\n' || c = '\r' || c = '\x0b' || c = '\x0c'

/-- Python `str.strip()`. -/
def stripStr (s : List Char) : List Char := trimEnds isPySpace s

/-- An enum descriptor: `ENUM_MAP` as an ordered label/value association
(labels unique) plus the `IS_FLAGS` marker. -/
structure EnumDescriptor where
  enumMap : List (String × Nat)
  isFlags : Bool

/-- `label in ENUM_MAP` / `ENUM_MAP[label]` (dict with unique keys). -/
def enumLookup (m : List (String × Nat)) (label : String) : Option Nat :=
  match m with
  | [] => none
  | (k, v) :: rest => if k = label then some v else enumLookup rest label

/-- The inverted mapping `dict([(v, k) for k, v in ENUM_MAP.items()])`:
for duplicate values the later label overwrites the earlier one. -/
def invLookup (m : List (String × Nat)) (v : Nat) : Option String :=
  match m with
  | [] => none
  | (k, w) :: rest =>
    match invLookup rest v with
    | some r => some r
    | none => if w = v then some k else none

/-- `InvalidEnumLabel`: the `ValueError` raised at encode time, carrying the
offending token and the valid label set. -/
inductive EnumError
  | invalidLabel (token : String) (valid : List String)
deriving DecidableEq

/-- The flag-enum encode loop of `PSEnumBase.__new__`: split on commas,
strip each token, OR the mapped values, fail on the first unknown token. -/
def encodeFlagsGo (m : List (String × Nat)) :
    List (List Char) → Nat → Except EnumError Nat
  | [], acc => .ok acc
  | t :: ts, acc =>
    let label := String.mk (stripStr t)
    match enumLookup m label with
    | none => .error (.invalidLabel label (m.map Prod.fst))
    | some v => encodeFlagsGo m ts (acc ||| v)

/-- `PSEnumBase.__new__` on a string input for a flags enum. -/
def encodeFlags (m : List (String × Nat)) (value : List Char) :
    Except EnumError Nat :=
  encodeFlagsGo m (splitOnSeq [','] value) 0

/-- `PSEnumBase.__new__` on a string input. -/
def PSEnumBase.new (d : EnumDescriptor) (value : List Char) :
    Except EnumError Nat :=
  if d.isFlags then encodeFlags d.enumMap value
  else
    match enumLookup d.enumMap (String.mk value) with
    | some v => .ok v
    | none => .error (.invalidLabel (String.mk value) (d.enumMap.map Prod.fst))

/-- Insert into a descending-sorted list. -/
def insertDesc (x : Nat) : List Nat → List Nat
  | [] => [x]
  | y :: ys => if y ≤ x then x :: y :: ys else y :: insertDesc x ys

/-- `sorted(values, reverse=True)` (on the distinct candidate values). -/
def sortDesc (l : List Nat) : List Nat := l.foldr insertDesc []

/-- The greedy decomposition loop of `PSEnumBase.__str__`: for each candidate
value `v` (descending), if `enum_value & v == v` emit its label and clear
those bits (`enum_value &= ~v`, written here as `r ^^^ (r &&& v)`). -/
def greedyFlags (m : List (String × Nat)) :
    List Nat → Nat → List String × Nat
  | [], r => ([], r)
  | v :: vs, r =>
    if r &&& v = v then
      let p := greedyFlags m vs (r ^^^ (r &&& v))
      (((invLookup m v).getD "") :: p.1, p.2)
    else greedyFlags m vs r

/-- The candidate values iterated by `__str__`:
`sorted([v for v in enum_map.keys() if v != 0], reverse=True)` where
`enum_map` is the inverted mapping (so: the distinct ENUM_MAP values). -/
def flagCandidates (m : List (String × Nat)) : List Nat :=
  sortDesc (((m.map Prod.snd).dedup).filter (fun v => v ≠ 0))

/-- `PSEnumBase.__str__` for the integer value `n`. -/
def PSEnumBase.str (d : EnumDescriptor) (n : Nat) : String :=
  match d.isFlags, invLookup d.enumMap n with
  | false, some s => s
  | false, none => natToString n
  | true, some s => s
  | true, none =>
    let p := greedyFlags d.enumMap (flagCandidates d.enumMap) n
    let tokens := p.1 ++ (if p.2 ≠ 0 then [natToString p.2] else [])
    String.intercalate ", " (if tokens = [] then [natToString n] else tokens)

/-- The decode algorithm as described by the specification (claim C6):
non-flag enums look the integer up in the inverted mapping, falling back to
its decimal rendering; flag enums return an exact label when defined,
otherwise greedily fold over the candidate values in descending order,
emitting each label whose bits are fully contained in the remaining value
and clearing them, append a non-zero residual as a decimal string, join
with `", "`, and fall back to the decimal form of the original integer when
nothing was emitted. -/
def specDecode (d : EnumDescriptor) (n : Nat) : String :=
  if d.isFlags = false then
    (invLookup d.enumMap n).getD (natToString n)
  else
    match invLookup d.enumMap n with
    | some s => s
    | none =>
      let p := (flagCandidates d.enumMap).foldl
        (fun (acc : List String × Nat) v =>
          if v &&& acc.2 = v then
            (acc.1 ++ [(invLookup d.enumMap v).getD ""], acc.2 ^^^ (acc.2 &&& v))
          else acc)
        ([], n)
      let tokens := p.1 ++ (if p.2 ≠ 0 then [natToString p.2] else [])
      String.intercalate ", " (if tokens = [] then [natToString n] else tokens)

/-- The flags descriptor of the claim C3 scenario. -/
def rwDescriptor : EnumDescriptor :=
  { enumMap := [("None", 0), ("Read", 1), ("Write", 2), ("Execute", 4)]
    isFlags := true }

/-! ## Theorems -/

set_option maxRecDepth 40000

theorem natDigitsRev_bounds :
    ∀ f n, ∀ b ∈ natDigitsRev f n, 48 ≤ b ∧ b ≤ 57 := by
  intro f
  induction f with
  | zero => intro n b hb; cases n <;> simp [natDigitsRev] at hb
  | succ f ih =>
    intro n b hb
    cases n with
    | zero => simp [natDigitsRev] at hb
    | succ m =>
      simp only [natDigitsRev, List.mem_cons] at hb
      rcases hb with rfl | hb
      · have : (m + 1) % 10 < 10 := Nat.mod_lt _ (by omega)
        omega
      · exact ih _ b hb

theorem natToBytes_bounds : ∀ n, ∀ b ∈ natToBytes n, 48 ≤ b ∧ b ≤ 57 := by
  intro n b hb
  unfold natToBytes at hb
  by_cases h : n = 0
  · rw [if_pos h] at hb; simp at hb; omega
  · rw [if_neg h] at hb
    exact natDigitsRev_bounds n n b (List.mem_reverse.mp hb)

theorem natToBytes_ne_nil : ∀ n, natToBytes n ≠ [] := by
  intro n
  unfold natToBytes
  by_cases h : n = 0
  · rw [if_pos h]; simp
  · rw [if_neg h]
    cases n with
    | zero => exact absurd rfl h
    | succ m => simp [natDigitsRev]

theorem parse_digitsRev :
    ∀ f n a, n ≤ f →
      ((natDigitsRev f n).reverse).foldl
        (fun acc b => acc.bind fun x =>
          if 48 ≤ b ∧ b ≤ 57 then some (x * 10 + (b - 48)) else none)
        (some a)
      = some (a * 10 ^ (natDigitsRev f n).length + n) := by
  intro f
  induction f with
  | zero => intro n a h; interval_cases n; simp [natDigitsRev]
  | succ f ih =>
    intro n a h
    cases n with
    | zero => simp [natDigitsRev]
    | succ m =>
      have hrec : (m + 1) / 10 ≤ f := by
        have := Nat.div_le_self (m + 1) 10
        have h10 : (m + 1) / 10 < m + 1 := Nat.div_lt_self (by omega) (by omega)
        omega
      simp only [natDigitsRev, List.reverse_cons, List.foldl_append, ih _ a hrec]
      have hb : 48 ≤ 48 + (m + 1) % 10 ∧ 48 + (m + 1) % 10 ≤ 57 := by
        have : (m + 1) % 10 < 10 := Nat.mod_lt _ (by omega)
        omega
      simp only [List.foldl_cons, List.foldl_nil, Option.some_bind, if_pos hb,
        List.length_cons]
      congr 1
      have h48 : 48 + (m + 1) % 10 - 48 = (m + 1) % 10 := by omega
      rw [h48, pow_succ]
      have hdm : 10 * ((m + 1) / 10) + (m + 1) % 10 = m + 1 := Nat.div_add_mod _ _
      calc (a * 10 ^ (natDigitsRev f ((m + 1) / 10)).length + (m + 1) / 10) * 10 + (m + 1) % 10
          = a * (10 ^ (natDigitsRev f ((m + 1) / 10)).length * 10) +
              (10 * ((m + 1) / 10) + (m + 1) % 10) := by ring
        _ = a * (10 ^ (natDigitsRev f ((m + 1) / 10)).length * 10) + (m + 1) := by rw [hdm]

theorem parseNatB_natToBytes (n : Nat) : parseNatB (natToBytes n) = some n := by
  unfold parseNatB natToBytes
  by_cases h : n = 0
  · subst h; decide
  · rw [if_neg h, if_neg (by simpa [natToBytes, if_neg h] using natToBytes_ne_nil n)]
    have := parse_digitsRev n n 0 (le_refl n)
    simpa using this

theorem unpack_pack (n : Nat) (r : Bytes) (h : n < 4294967296) :
    unpackI32LE (packI32LE n ++ r) = some n := by
  simp only [packI32LE, List.cons_append, List.nil_append, unpackI32LE]
  congr 1
  omega

theorem pack_length (n : Nat) : (packI32LE n).length = 4 := rfl

theorem drop_pack (n : Nat) (r : Bytes) : (packI32LE n ++ r).drop 4 = r := rfl

theorem splitOnAux_fuel [DecidableEq α] (sep : List α) :
    ∀ f g (s : List α), s.length ≤ f → s.length ≤ g →
      splitOnAux sep f s = splitOnAux sep g s := by
  intro f
  induction f with
  | zero =>
    intro g s hf _
    have : s = [] := List.length_eq_zero.mp (Nat.le_zero.mp hf)
    subst this
    cases g <;> rfl
  | succ f ih =>
    intro g s hf hg
    cases s with
    | nil => cases g <;> rfl
    | cons c rest =>
      cases g with
      | zero => simp at hg
      | succ g =>
        simp only [splitOnAux]
        by_cases h : sep <+: (c :: rest)
        · rw [if_pos h, if_pos h]
          have h1 : (List.drop (sep.length - 1) rest).length ≤ f := by
            have := List.length_drop (sep.length - 1) rest
            simp at hf
            omega
          have h2 : (List.drop (sep.length - 1) rest).length ≤ g := by
            have := List.length_drop (sep.length - 1) rest
            simp at hg
            omega
          rw [ih g _ h1 h2]
        · rw [if_neg h, if_neg h,
            ih g rest (by simp at hf; omega) (by simp at hg; omega)]

theorem splitOnSeq_sep_append [DecidableEq α] (sep b : List α) (hs : sep ≠ []) :
    splitOnSeq sep (sep ++ b) = [] :: splitOnSeq sep b := by
  obtain ⟨p0, pr, rfl⟩ := List.exists_cons_of_ne_nil hs
  show splitOnAux (p0 :: pr) ((p0 :: pr) ++ b).length ((p0 :: pr) ++ b) = _
  have hsh : (p0 :: pr) ++ b = p0 :: (pr ++ b) := rfl
  rw [hsh, List.length_cons, splitOnAux]
  rw [if_pos (by rw [← hsh]; exact List.prefix_append _ _)]
  have hdrop : List.drop ((p0 :: pr).length - 1) (pr ++ b) = b := by
    simp only [List.length_cons, Nat.add_sub_cancel]
    rw [List.drop_append_eq_append_drop, List.drop_eq_nil_of_le (le_refl _)]
    simp
  rw [hdrop]
  rw [splitOnAux_fuel (p0 :: pr) (pr ++ b).length b.length b (by simp) (le_refl _)]
  rfl

theorem splitOnSeq_cons_of_no_front_match [DecidableEq α] {sep : List α} {c : α} {rest : List α}
    (h : ¬ sep <+: (c :: rest)) :
    splitOnSeq sep (c :: rest) =
      match splitOnSeq sep rest with
      | [] => [[c]]
      | t :: ts => (c :: t) :: ts := by
  show splitOnAux sep (c :: rest).length (c :: rest) = _
  rw [List.length_cons, splitOnAux, if_neg h]
  rfl

theorem splitOnAux_ne_nil [DecidableEq α] (sep : List α) :
    ∀ f (s : List α), splitOnAux sep f s ≠ [] := by
  intro f
  induction f with
  | zero => intro s; cases s <;> simp [splitOnAux]
  | succ f ih =>
    intro s
    cases s with
    | nil => simp [splitOnAux]
    | cons c rest =>
      simp only [splitOnAux]
      by_cases h : sep <+: (c :: rest)
      · rw [if_pos h]; simp
      · rw [if_neg h]
        cases hr : splitOnAux sep f rest with
        | nil => simp
        | cons t ts => simp

theorem splitOnSeq_ne_nil [DecidableEq α] (sep s : List α) : splitOnSeq sep s ≠ [] :=
  splitOnAux_ne_nil sep s.length s

theorem noStart_tail {sep : Bytes} {c : Nat} {a : Bytes}
    (h : noStart sep (c :: a)) : noStart sep a := by
  intro i hi hp
  exact h (i + 1) (by simp; omega) (by simpa using hp)

theorem split_main {sep : Bytes} {p0 : Nat} {pr : Bytes} (hsep : sep = p0 :: pr) :
    ∀ a b : Bytes, noStart sep a →
      splitOnSeq sep (a ++ sep ++ b) = a :: splitOnSeq sep b := by
  intro a
  induction a with
  | nil =>
    intro b _
    simpa using splitOnSeq_sep_append sep b (by simp [hsep])
  | cons c a' ih =>
    intro b h
    have hnp : ¬ sep <+: ((c :: a') ++ sep ++ b) := by
      intro hp
      apply h 0 (by simp)
      have hlen : sep.length ≤ ((c :: a') ++ sep).length := by simp; omega
      have : sep = (((c :: a') ++ sep) ++ b).take sep.length := by
        exact List.prefix_iff_eq_take.mp hp
      rw [List.take_append_of_le_length hlen] at this
      simpa using (List.prefix_iff_eq_take.mpr this)
    have hsh : (c :: a') ++ sep ++ b = c :: (a' ++ sep ++ b) := by simp
    rw [hsh] at hnp
    rw [hsh, splitOnSeq_cons_of_no_front_match hnp, ih b (noStart_tail h)]

theorem noOcc_tail {pat : Bytes} {c : Nat} {s : Bytes}
    (h : noOcc pat (c :: s)) : noOcc pat s := by
  intro i
  simpa using h (i + 1)

theorem split_of_noOcc {pat : Bytes} :
    ∀ s : Bytes, noOcc pat s → splitOnSeq pat s = [s] := by
  intro s
  induction s with
  | nil => intro _; rfl
  | cons c rest ih =>
    intro h
    have h0 : ¬ pat <+: (c :: rest) := by simpa using h 0
    rw [splitOnSeq_cons_of_no_front_match h0, ih (noOcc_tail h)]

theorem prefix_drop_fst {pat s : Bytes} {i : Nat} {p0 : Nat} {pr : Bytes}
    (hpat : pat = p0 :: pr) (h : pat <+: s.drop i) : s[i]? = some p0 := by
  obtain ⟨t, ht⟩ := h
  have : (s.drop i).head? = some p0 := by
    rw [← ht, hpat]
    rfl
  rwa [List.head?_drop] at this

theorem prefix_drop_snd {pat s : Bytes} {i : Nat} {p0 p1 : Nat} {pr : Bytes}
    (hpat : pat = p0 :: p1 :: pr) (h : pat <+: s.drop i) : s[i + 1]? = some p1 := by
  obtain ⟨t, ht⟩ := h
  have h1 : (s.drop i)[1]? = some p1 := by
    rw [← ht, hpat]
    simp
  rw [List.getElem?_drop] at h1
  exact h1

theorem noPair45_spec :
    ∀ l : Bytes, noPair45 l = true →
      ∀ i, ¬ (l[i]? = some 45 ∧ l[i + 1]? = some 45) := by
  intro l
  induction l with
  | nil => intro _ i h; simp at h
  | cons x rest ih =>
    intro h i hi
    cases rest with
    | nil =>
      rcases hi with ⟨h1, h2⟩
      cases i with
      | zero => simp at h2
      | succ j => simp at h1
    | cons y rest' =>
      simp only [noPair45, Bool.and_eq_true, Bool.not_eq_true'] at h
      rcases hi with ⟨h1, h2⟩
      cases i with
      | zero =>
        simp only [List.getElem?_cons_zero, Option.some.injEq] at h1
        simp only [List.getElem?_cons_succ, List.getElem?_cons_zero,
          Option.some.injEq] at h2
        rcases h with ⟨hxy, _⟩
        simp [h1, h2] at hxy
      | succ j =>
        rw [List.getElem?_cons_succ] at h1
        rw [List.getElem?_cons_succ] at h2
        exact ih h.2 j ⟨h1, h2⟩

theorem mem_of_getElem?_eq {l : Bytes} {i : Nat} {a : Nat} (h : l[i]? = some a) :
    a ∈ l := by
  obtain ⟨hlt, rfl⟩ := List.getElem?_eq_some.mp h
  exact List.getElem_mem hlt

theorem noStart_of_head_not_mem {pat : Bytes} {p0 : Nat} {pr : Bytes}
    (hpat : pat = p0 :: pr) {a : Bytes} (hm : p0 ∉ a) : noStart pat a := by
  intro i hi hp
  have h0 : (a ++ pat)[i]? = some p0 := prefix_drop_fst hpat hp
  rw [List.getElem?_append, if_pos hi] at h0
  exact hm (mem_of_getElem?_eq h0)

theorem noOcc_of_head_not_mem {pat : Bytes} {p0 : Nat} {pr : Bytes}
    (hpat : pat = p0 :: pr) {s : Bytes} (hm : p0 ∉ s) : noOcc pat s := by
  intro i hp
  exact hm (mem_of_getElem?_eq (prefix_drop_fst hpat hp))

theorem noStart_of_noPair45 {sep : Bytes} {pr : Bytes} (hsep : sep = 45 :: 45 :: pr)
    {a : Bytes} (h : noPair45 (a ++ [45]) = true) : noStart sep a := by
  intro i hi hp
  have e1 : (a ++ sep)[i]? = some 45 := prefix_drop_fst hsep hp
  have e2 : (a ++ sep)[i + 1]? = some 45 := prefix_drop_snd hsep hp
  apply noPair45_spec _ h i
  constructor
  · rw [List.getElem?_append, if_pos hi]
    rw [List.getElem?_append, if_pos hi] at e1
    exact e1
  · by_cases hlt : i + 1 < a.length
    · rw [List.getElem?_append, if_pos hlt]
      rw [List.getElem?_append, if_pos hlt] at e2
      exact e2
    · have : i + 1 = a.length := by omega
      rw [List.getElem?_append, if_neg (by omega), this]
      simp

theorem noOcc_of_noPair45 {sep : Bytes} {pr : Bytes} (hsep : sep = 45 :: 45 :: pr)
    {s : Bytes} (h : noPair45 s = true) : noOcc sep s := by
  intro i hp
  exact noPair45_spec _ h i ⟨prefix_drop_fst hsep hp, prefix_drop_snd hsep hp⟩

theorem noOcc_append_of_noPair45 {sep : Bytes} {pr : Bytes} (hsep : sep = 45 :: 45 :: pr)
    {u v : Bytes} (hu : noPair45 (u ++ [45]) = true) (hv : noOcc sep v) :
    noOcc sep (u ++ v) := by
  intro i hp
  by_cases hi : i < u.length
  · have e1 : (u ++ v)[i]? = some 45 := prefix_drop_fst hsep hp
    have e2 : (u ++ v)[i + 1]? = some 45 := prefix_drop_snd hsep hp
    apply noPair45_spec _ hu i
    constructor
    · rw [List.getElem?_append, if_pos hi]
      rw [List.getElem?_append, if_pos hi] at e1
      exact e1
    · by_cases hlt : i + 1 < u.length
      · rw [List.getElem?_append, if_pos hlt]
        rw [List.getElem?_append, if_pos hlt] at e2
        exact e2
      · have : i + 1 = u.length := by omega
        rw [List.getElem?_append, if_neg (by omega), this]
        simp
  · apply hv (i - u.length)
    have : (u ++ v).drop i = v.drop (i - u.length) := by
      rw [List.drop_append_eq_append_drop, List.drop_eq_nil_of_le (by omega)]
      simp
    rwa [this] at hp

theorem noOcc_of_noOccB {pat s : Bytes} (hpat : pat ≠ []) (h : noOccB pat s = true) :
    noOcc pat s := by
  intro i hp
  by_cases hi : i < s.length
  · rw [noOccB, List.all_eq_true] at h
    have := h i (List.mem_range.mpr hi)
    simp only [Bool.not_eq_true', decide_eq_false_iff_not] at this
    exact this hp
  · rw [List.drop_eq_nil_of_le (by omega)] at hp
    exact hpat (List.prefix_nil.mp hp)

theorem noPair45_of_not_mem {l : Bytes} (h : 45 ∉ l) : noPair45 l = true := by
  induction l with
  | nil => rfl
  | cons x rest ih =>
    cases rest with
    | nil => rfl
    | cons y rest' =>
      simp only [noPair45, Bool.and_eq_true, Bool.not_eq_true']
      constructor
      · have : x ≠ 45 := fun hx => h (by simp [hx])
        simp [this]
      · exact ih (fun hy => h (List.mem_cons_of_mem _ hy))

theorem noPair45_append {a b : Bytes} (ha : noPair45 a = true) (hb : noPair45 b = true)
    (hj : ∀ x, a.getLast? = some x → ∀ y, b.head? = some y → ¬(x = 45 ∧ y = 45)) :
    noPair45 (a ++ b) = true := by
  induction a with
  | nil => simpa using hb
  | cons x a' ih =>
    cases a' with
    | nil =>
      cases b with
      | nil => rfl
      | cons y b' =>
        simp only [List.cons_append, List.nil_append, noPair45,
          Bool.and_eq_true, Bool.not_eq_true']
        constructor
        · have := hj x (by rfl) y (by rfl)
          by_cases hx : x = 45
          · by_cases hy : y = 45
            · exact absurd ⟨hx, hy⟩ this
            · simp [hy]
          · simp [hx]
        · exact hb
    | cons z a'' =>
      have hfst : ¬(x = 45 ∧ z = 45) := by
        simp only [noPair45, Bool.and_eq_true, Bool.not_eq_true'] at ha
        intro hc
        simp [hc.1, hc.2] at ha
      have ha' : noPair45 (z :: a'') = true := by
        simp only [noPair45, Bool.and_eq_true] at ha
        exact ha.2
      have hj' : ∀ x, (z :: a'').getLast? = some x → ∀ y, b.head? = some y →
          ¬(x = 45 ∧ y = 45) := by
        intro w hw y hy
        exact hj w (by rw [← hw]; rfl) y hy
      have := ih ha' hj'
      simp only [List.cons_append] at this ⊢
      simp only [noPair45, Bool.and_eq_true, Bool.not_eq_true'] at this ⊢
      constructor
      · by_cases hx : x = 45
        · by_cases hz : z = 45
          · exact absurd ⟨hx, hz⟩ hfst
          · simp [hz]
        · simp [hx]
      · exact this

theorem replaceAux_fuel [DecidableEq α] (pat repl : List α) :
    ∀ f g (s : List α), s.length ≤ f → s.length ≤ g →
      replaceAux pat repl f s = replaceAux pat repl g s := by
  intro f
  induction f with
  | zero =>
    intro g s hf _
    have : s = [] := List.length_eq_zero.mp (Nat.le_zero.mp hf)
    subst this
    cases g <;> rfl
  | succ f ih =>
    intro g s hf hg
    cases s with
    | nil => cases g <;> rfl
    | cons c rest =>
      cases g with
      | zero => simp at hg
      | succ g =>
        simp only [replaceAux]
        by_cases h : pat <+: (c :: rest)
        · rw [if_pos h, if_pos h]
          have h1 : (List.drop (pat.length - 1) rest).length ≤ f := by
            have := List.length_drop (pat.length - 1) rest
            simp at hf
            omega
          have h2 : (List.drop (pat.length - 1) rest).length ≤ g := by
            have := List.length_drop (pat.length - 1) rest
            simp at hg
            omega
          rw [ih g _ h1 h2]
        · rw [if_neg h, if_neg h,
            ih g rest (by simp at hf; omega) (by simp at hg; omega)]

theorem replace_head {pat : Bytes} {p0 : Nat} {pr : Bytes} (hpat : pat = p0 :: pr)
    (s : Bytes) : replaceSeq pat [] (pat ++ s) = replaceSeq pat [] s := by
  subst hpat
  show replaceAux _ _ ((p0 :: pr) ++ s).length ((p0 :: pr) ++ s) = _
  have hsh : (p0 :: pr) ++ s = p0 :: (pr ++ s) := rfl
  rw [hsh, List.length_cons, replaceAux]
  rw [if_pos (by rw [← hsh]; exact List.prefix_append _ _)]
  have hdrop : List.drop ((p0 :: pr).length - 1) (pr ++ s) = s := by
    simp only [List.length_cons, Nat.add_sub_cancel]
    rw [List.drop_append_eq_append_drop, List.drop_eq_nil_of_le (le_refl _)]
    simp
  rw [hdrop, List.nil_append]
  exact replaceAux_fuel _ _ _ _ s (by simp) (le_refl _)

theorem replace_of_noOcc {pat : Bytes} :
    ∀ s : Bytes, noOcc pat s → replaceSeq pat [] s = s := by
  intro s
  induction s with
  | nil => intro _; rfl
  | cons c rest ih =>
    intro h
    have h0 : ¬ pat <+: (c :: rest) := by simpa using h 0
    show replaceAux _ _ (c :: rest).length (c :: rest) = _
    rw [List.length_cons, replaceAux, if_neg h0]
    have : replaceAux pat [] rest.length rest = rest := ih (noOcc_tail h)
    rw [this]

theorem mem_of_getLast?_eq {l : Bytes} {a : Nat} (h : l.getLast? = some a) : a ∈ l := by
  have h2 : l.reverse.head? = some a := by rw [List.head?_reverse]; exact h
  have hm : a ∈ l.reverse := by
    cases hr : l.reverse with
    | nil => rw [hr] at h2; simp at h2
    | cons x t =>
      rw [hr] at h2
      simp only [List.head?_cons, Option.some.injEq] at h2
      rw [h2]
      simp
  exact List.mem_reverse.mp hm

theorem dropWhile_append_of_forall {p : Nat → Bool} {pre : Bytes}
    (h : ∀ x ∈ pre, p x = true) (r : Bytes) :
    (pre ++ r).dropWhile p = r.dropWhile p := by
  induction pre with
  | nil => rfl
  | cons x t ih =>
    simp only [List.cons_append, List.dropWhile_cons]
    rw [if_pos (h x (by simp)), ih (fun y hy => h y (by simp [hy]))]

theorem trimEnds_sandwich {p : Nat → Bool} {pre mid post : Bytes}
    (hpre : ∀ x ∈ pre, p x = true) (hpost : ∀ x ∈ post, p x = true)
    (hmid : mid ≠ [])
    (hh : ∀ x, mid.head? = some x → p x = false)
    (hl : ∀ x, mid.getLast? = some x → p x = false) :
    trimEnds p (pre ++ mid ++ post) = mid := by
  obtain ⟨c, mid', rfl⟩ := List.exists_cons_of_ne_nil hmid
  unfold trimEnds
  rw [List.append_assoc, dropWhile_append_of_forall hpre]
  have hc : p c = false := hh c rfl
  have h1 : ((c :: mid') ++ post).dropWhile p = (c :: mid') ++ post := by
    simp only [List.cons_append, List.dropWhile_cons, hc]
    simp
  rw [h1, List.reverse_append, dropWhile_append_of_forall
    (fun x hx => hpost x (List.mem_reverse.mp hx))]
  have hrm : (c :: mid').reverse ≠ [] := by simp
  obtain ⟨d, rest, hd⟩ := List.exists_cons_of_ne_nil hrm
  have hdl : (c :: mid').getLast? = some d := by
    rw [← List.head?_reverse, hd]
    rfl
  have hpd : p d = false := hl d hdl
  rw [hd]
  simp only [List.dropWhile_cons, hpd]
  simp only [Bool.false_eq_true, if_false, ← hd, List.reverse_reverse]

theorem hdrTail_decomp (protocol : String) (n : Nat) :
    hdrTail protocol n = [9] ++ (hdrA protocol ++ lenPat ++ natToBytes n) ++ [13, 10] := by
  have h1 : strBytes ("\tContent-Type: ") = [9] ++ strBytes ("Content-Type: ") := by decide
  have h2 : strBytes ("\r\n\tOriginalContent: type=application/soap+xml;charset=UTF-8;Length=") =
      strBytes ("\r\n\tOriginalContent: type=application/soap+xml;charset=UTF-8;") ++ lenPat := by
    decide
  have h3 : strBytes ("\r\n") = ([13, 10] : Bytes) := by decide
  rw [hdrTail, hdrA, h1, h2, h3]
  simp [List.append_assoc]

theorem stripB_hdrTail (protocol : String) (n : Nat) :
    stripB (hdrTail protocol n) = hdrA protocol ++ lenPat ++ natToBytes n := by
  rw [hdrTail_decomp]
  apply trimEnds_sandwich
  · intro x hx; simp at hx; subst hx; rfl
  · intro x hx
    simp at hx
    rcases hx with rfl | rfl <;> rfl
  · intro hc
    exact natToBytes_ne_nil n (List.append_eq_nil.mp hc).2
  · intro x hx
    have hCh : strBytes ("Content-Type: ") = 67 :: strBytes ("ontent-Type: ") := by decide
    rw [hdrA, hCh] at hx
    simp only [List.cons_append, List.head?_cons, Option.some.injEq] at hx
    subst hx
    rfl
  · intro x hx
    have hne : natToBytes n ≠ [] := natToBytes_ne_nil n
    obtain ⟨d, hd⟩ : ∃ d, (natToBytes n).getLast? = some d := by
      cases hg : (natToBytes n).getLast? with
      | none => exact absurd (List.getLast?_eq_none_iff.mp hg) hne
      | some d => exact ⟨d, rfl⟩
    have hlast : (hdrA protocol ++ lenPat ++ natToBytes n).getLast? = some d := by
      rw [List.getLast?_append]
      simp [hd]
    rw [hlast] at hx
    have hdx : d = x := Option.some.inj hx
    subst hdx
    have hb := natToBytes_bounds n d (mem_of_getLast?_eq hd)
    simp only [isSpaceB]
    simp
    omega

theorem sepB_shape : sepB = 45 :: 45 :: strBytes ("Encrypted Boundary\r\n") := by decide

theorem lenPat_shape : lenPat = 76 :: strBytes ("ength=") := by decide

theorem octetMarker_shape : octetMarker = 9 :: strBytes ("Content-Type: application/octet-stream\r\n") := by
  decide

theorem noStart_nil {pat : Bytes} : noStart pat [] := by
  intro i hi
  simp at hi

theorem no45_natToBytes (n : Nat) : 45 ∉ natToBytes n := by
  intro h
  have := natToBytes_bounds n 45 h
  omega

theorem noPair45_digits_tail (n : Nat) :
    noPair45 (natToBytes n ++ [13, 10, 45]) = true := by
  apply noPair45_append (noPair45_of_not_mem (no45_natToBytes n)) (by decide)
  intro x hx y _
  intro hc
  have := natToBytes_bounds n x (mem_of_getLast?_eq hx)
  omega

theorem noPair45_hdrTail (protocol : String)
    (hp : protocol = SPNEGO_CT ∨ protocol = CREDSSP_CT) (n : Nat) :
    noPair45 (hdrTail protocol n ++ [45]) = true := by
  have key : hdrTail protocol n ++ [45] =
      ([9] ++ hdrA protocol ++ lenPat) ++ (natToBytes n ++ [13, 10, 45]) := by
    rw [hdrTail_decomp]
    simp [List.append_assoc]
  rw [key]
  apply noPair45_append ?_ (noPair45_digits_tail n)
  · intro x hx y _
    have h61 : (([9] ++ hdrA protocol ++ lenPat) : Bytes).getLast? = some 61 := by
      rcases hp with rfl | rfl <;> decide
    rw [h61] at hx
    have : x = 61 := by injection hx; omega
    subst this
    intro hc
    omega
  · rcases hp with rfl | rfl <;> decide

theorem noPair45_marker_blob {w : Bytes} (h45 : 45 ∉ w) :
    noPair45 ((octetMarker ++ w) ++ [45]) = true := by
  rw [List.append_assoc]
  apply noPair45_append (by decide)
  · apply noPair45_append (noPair45_of_not_mem h45) (by decide)
    intro x hx y _
    intro hc
    exact h45 (hc.1 ▸ mem_of_getLast?_eq hx)
  · intro x hx y _
    have : x = 10 := by
      have h10 : octetMarker.getLast? = some 10 := by decide
      rw [h10] at hx
      injection hx; omega
    subst this
    intro hc
    omega

theorem noOcc_sepB_termB : noOcc sepB termB :=
  noOcc_of_noOccB (by decide) (by decide)

theorem noOcc_last_segment {w : Bytes} (h45 : 45 ∉ w) :
    noOcc sepB (octetMarker ++ (w ++ termB)) := by
  have h : noOcc sepB ((octetMarker ++ w) ++ termB) :=
    noOcc_append_of_noPair45 sepB_shape (noPair45_marker_blob h45) noOcc_sepB_termB
  rwa [List.append_assoc] at h

theorem noStart_sepB_hdrTail (protocol : String)
    (hp : protocol = SPNEGO_CT ∨ protocol = CREDSSP_CT) (n : Nat) :
    noStart sepB (hdrTail protocol n) :=
  noStart_of_noPair45 sepB_shape (noPair45_hdrTail protocol hp n)

theorem noStart_sepB_marker_blob {w : Bytes} (h45 : 45 ∉ w) :
    noStart sepB (octetMarker ++ w) :=
  noStart_of_noPair45 sepB_shape (noPair45_marker_blob h45)

theorem split_main' {sep : Bytes} {p0 : Nat} {pr : Bytes} (hsep : sep = p0 :: pr)
    (a b : Bytes) (h : noStart sep a) :
    splitOnSeq sep (a ++ (sep ++ b)) = a :: splitOnSeq sep b := by
  rw [← List.append_assoc]
  exact split_main hsep a b h

theorem split_cons_sepB (b : Bytes) :
    splitOnSeq sepB (sepB ++ b) = [] :: splitOnSeq sepB b :=
  splitOnSeq_sep_append sepB b (by decide)

theorem no76_hdrA (protocol : String)
    (hp : protocol = SPNEGO_CT ∨ protocol = CREDSSP_CT) : 76 ∉ hdrA protocol := by
  rcases hp with rfl | rfl <;> decide

theorem lengthField_hdr (protocol : String)
    (hp : protocol = SPNEGO_CT ∨ protocol = CREDSSP_CT) (n : Nat) :
    lengthField (stripB (hdrTail protocol n)) = some n := by
  rw [stripB_hdrTail]
  show (match splitOnSeq lenPat (hdrA protocol ++ lenPat ++ natToBytes n) with
    | _ :: second :: _ => parseNatB second
    | _ => none) = some n
  rw [split_main lenPat_shape (hdrA protocol) (natToBytes n)
    (noStart_of_head_not_mem lenPat_shape (no76_hdrA protocol hp))]
  rw [split_of_noOcc (natToBytes n)
    (noOcc_of_head_not_mem lenPat_shape (fun hm => by
      have := natToBytes_bounds n 76 hm
      omega))]
  exact parseNatB_natToBytes n

theorem splitEnv (protocol : String)
    (hp : protocol = SPNEGO_CT ∨ protocol = CREDSSP_CT) :
    ∀ L : List (Nat × Bytes), L ≠ [] → (∀ p ∈ L, 45 ∉ p.2) →
      splitOnSeq sepB (envBody protocol L ++ termB) = [] :: rawParts protocol L := by
  intro L
  induction L with
  | nil => intro h; exact absurd rfl h
  | cons p rest ih =>
    intro _ h45
    obtain ⟨n, w⟩ := p
    have h45w : 45 ∉ w := h45 (n, w) (by simp)
    cases rest with
    | nil =>
      have key : envBody protocol [(n, w)] ++ termB =
          sepB ++ (hdrTail protocol n ++ (sepB ++ (octetMarker ++ (w ++ termB)))) := by
        simp [envBody, List.append_assoc]
      rw [key, split_cons_sepB,
        split_main' sepB_shape (hdrTail protocol n) (octetMarker ++ (w ++ termB))
          (noStart_sepB_hdrTail protocol hp n),
        split_of_noOcc _ (noOcc_last_segment h45w)]
      simp [rawParts, List.append_assoc]
    | cons q rest' =>
      have hZ : envBody protocol (q :: rest') ++ termB =
          sepB ++ ((hdrTail protocol q.1 ++
            (sepB ++ ((octetMarker ++ q.2) ++ envBody protocol rest'))) ++ termB) := by
        simp [envBody, List.append_assoc]
      have key : envBody protocol ((n, w) :: q :: rest') ++ termB =
          sepB ++ (hdrTail protocol n ++ (sepB ++ ((octetMarker ++ w) ++
            (sepB ++ ((hdrTail protocol q.1 ++
              (sepB ++ ((octetMarker ++ q.2) ++ envBody protocol rest'))) ++ termB))))) := by
        simp [envBody, List.append_assoc]
      rw [key, split_cons_sepB,
        split_main' sepB_shape (hdrTail protocol n) _
          (noStart_sepB_hdrTail protocol hp n),
        split_main' sepB_shape (octetMarker ++ w) _
          (noStart_sepB_marker_blob h45w)]
      have hIH : splitOnSeq sepB (envBody protocol (q :: rest') ++ termB) =
          [] :: rawParts protocol (q :: rest') :=
        ih (by simp) (fun p hp' => h45 p (by simp [hp']))
      rw [hZ, split_cons_sepB] at hIH
      have htail : splitOnSeq sepB ((hdrTail protocol q.1 ++
          (sepB ++ ((octetMarker ++ q.2) ++ envBody protocol rest'))) ++ termB) =
          rawParts protocol (q :: rest') := by
        injection hIH
      rw [htail]
      obtain ⟨m, v⟩ := q
      simp [rawParts]

theorem rawParts_mem_ne_nil (protocol : String) :
    ∀ L, ∀ x ∈ rawParts protocol L, x ≠ [] := by
  intro L
  induction L with
  | nil => intro x hx; simp [rawParts] at hx
  | cons p rest ih =>
    intro x hx
    obtain ⟨n, w⟩ := p
    have hhdr : hdrTail protocol n ≠ [] := by
      rw [hdrTail_decomp]
      simp
    cases rest with
    | nil =>
      simp only [rawParts, List.mem_cons] at hx
      rcases hx with rfl | rfl | hx
      · exact hhdr
      · simp [octetMarker_shape]
      · simp at hx
    | cons q rest' =>
      simp only [rawParts, List.mem_cons] at hx
      rcases hx with rfl | rfl | hx
      · exact hhdr
      · simp [octetMarker_shape]
      · exact ih x hx

theorem filter_rawParts (protocol : String) (L : List (Nat × Bytes)) :
    (([] :: rawParts protocol L).filter (fun p => p ≠ [])) = rawParts protocol L := by
  rw [List.filter_cons]
  simp only [decide_not]
  rw [if_neg (by simp)]
  apply List.filter_eq_self.mpr
  intro a ha
  simp [rawParts_mem_ne_nil protocol L a ha]

theorem not_term_suffix {w : Bytes} (h45 : 45 ∉ w) (hw : 3 ≤ w.length)
    (u : Bytes) : ¬ termB <:+ (u ++ w) := by
  rintro ⟨t, ht⟩
  have hrev := congrArg List.reverse ht
  rw [List.reverse_append, List.reverse_append] at hrev
  have hwr : 3 ≤ w.reverse.length := by simpa using hw
  obtain ⟨a, r1, hr1⟩ := List.exists_cons_of_ne_nil
    (l := w.reverse) (by intro hnil; rw [hnil] at hwr; simp at hwr)
  have h2 : 2 ≤ r1.length := by rw [hr1] at hwr; simp at hwr; omega
  obtain ⟨b, r2, hr2⟩ := List.exists_cons_of_ne_nil
    (l := r1) (by intro hnil; rw [hnil] at h2; simp at h2)
  have h3 : 1 ≤ r2.length := by rw [hr2] at h2; simp at h2; omega
  obtain ⟨c, r3, hr3⟩ := List.exists_cons_of_ne_nil
    (l := r2) (by intro hnil; rw [hnil] at h3; simp at h3)
  have hterm3 : termB.reverse = 10 :: 13 :: 45 :: (termB.reverse.drop 3) := by decide
  rw [hr1, hr2, hr3, hterm3] at hrev
  simp only [List.cons_append, List.cons.injEq] at hrev
  have hc45 : c = 45 := hrev.2.2.1.symm
  apply h45
  apply List.mem_reverse.mp
  rw [hr1, hr2, hr3, hc45]
  simp

theorem term_length : termB.length = 24 := by decide

theorem clean_last {w : Bytes} (h9 : 9 ∉ w) :
    replaceSeq octetMarker []
      (if termB <:+ (octetMarker ++ w ++ termB) then
        (octetMarker ++ w ++ termB).take ((octetMarker ++ w ++ termB).length - 24)
      else (octetMarker ++ w ++ termB)) = w := by
  rw [if_pos (List.suffix_append _ _)]
  have htake : (octetMarker ++ w ++ termB).take ((octetMarker ++ w ++ termB).length - 24) =
      octetMarker ++ w := by
    rw [show octetMarker ++ w ++ termB = (octetMarker ++ w) ++ termB from rfl]
    rw [List.length_append, term_length, Nat.add_sub_cancel]
    exact List.take_left _ _
  rw [htake, replace_head octetMarker_shape w,
    replace_of_noOcc w (noOcc_of_head_not_mem octetMarker_shape h9)]

theorem clean_mid {w : Bytes} (h9 : 9 ∉ w) (h45 : 45 ∉ w) (hlen : 4 ≤ w.length) :
    replaceSeq octetMarker []
      (if termB <:+ (octetMarker ++ w) then
        (octetMarker ++ w).take ((octetMarker ++ w).length - 24)
      else (octetMarker ++ w)) = w := by
  rw [if_neg (not_term_suffix h45 (by omega) octetMarker)]
  rw [replace_head octetMarker_shape w,
    replace_of_noOcc w (noOcc_of_head_not_mem octetMarker_shape h9)]

theorem procChar (protocol : String) (ctx : HostContext)
    (hp : protocol = SPNEGO_CT ∨ protocol = CREDSSP_CT) :
    ∀ L, (∀ p ∈ L, wHyg p.2) →
      processParts protocol ctx (rawParts protocol L) = processChunks protocol ctx L := by
  intro L
  induction L with
  | nil => intro _; rfl
  | cons p rest ih =>
    intro h
    obtain ⟨n, w⟩ := p
    obtain ⟨h45, h9, hlen⟩ := h (n, w) (by simp)
    cases rest with
    | nil =>
      show processParts protocol ctx [hdrTail protocol n, octetMarker ++ w ++ termB] = _
      simp only [processParts, processChunks]
      rw [lengthField_hdr protocol hp n]
      simp only []
      rw [clean_last h9]
    | cons q rest' =>
      show processParts protocol ctx
        (hdrTail protocol n :: (octetMarker ++ w) :: rawParts protocol (q :: rest')) = _
      have hne : rawParts protocol (q :: rest') ≠ [] := by
        obtain ⟨m, v⟩ := q
        cases rest' <;> simp [rawParts]
      simp only [processParts, processChunks]
      rw [lengthField_hdr protocol hp n]
      simp only []
      rw [clean_mid h9 h45 hlen]
      cases hu : unwrapRaw protocol ctx w with
      | none => rfl
      | some u =>
        rw [ih (fun p hp' => h p (by simp [hp']))]
        rfl

theorem unwrap_envelope (protocol : String) (ctx : HostContext)
    (hp : protocol = SPNEGO_CT ∨ protocol = CREDSSP_CT)
    (L : List (Nat × Bytes)) (hL : L ≠ []) (h : ∀ p ∈ L, wHyg p.2) :
    unwrap_message protocol ctx (envBody protocol L ++ termB) =
      processChunks protocol ctx L := by
  unfold unwrap_message
  rw [splitEnv protocol hp L hL (fun p hp' => (h p hp').1), filter_rawParts]
  exact procChar protocol ctx hp L h

theorem chunksAux_flatten :
    ∀ f (s : Bytes), s.length ≤ f → (chunksAux f s).flatten = s := by
  intro f
  induction f with
  | zero =>
    intro s hf
    have : s = [] := List.length_eq_zero.mp (Nat.le_zero.mp hf)
    subst this
    rfl
  | succ f ih =>
    intro s hf
    cases s with
    | nil => rfl
    | cons c rest =>
      simp only [chunksAux, List.flatten_cons]
      rw [ih _ (by simp at hf ⊢; have := List.length_drop 16384 rest; omega)]
      exact List.take_append_drop _ _

theorem chunksOf_flatten (m : Bytes) : (chunksOf m).flatten = m :=
  chunksAux_flatten m.length m (le_refl _)

theorem chunksOf_ne_nil {m : Bytes} (h : m ≠ []) : chunksOf m ≠ [] := by
  obtain ⟨c, rest, rfl⟩ := List.exists_cons_of_ne_nil h
  simp [chunksOf, chunksAux]

theorem wrapRaw_length (protocol : String) (ctx : HostContext) (d : Bytes) :
    4 ≤ (wrapRaw protocol ctx d).length := by
  unfold wrapRaw
  split <;> simp [packI32LE]

theorem unwrap_wrapRaw (protocol : String) (ctx : HostContext)
    (hp : protocol = SPNEGO_CT ∨ protocol = CREDSSP_CT)
    (hsinv : ∀ d, ctx.sunwrap (ctx.swrap d).1 (ctx.swrap d).2 = d)
    (hcinv : ∀ d, ctx.cunwrap (ctx.cwrap d) = d)
    (hhl : ∀ d, (ctx.swrap d).1.length < 2147483648)
    (d : Bytes) :
    unwrapRaw protocol ctx (wrapRaw protocol ctx d) = some d := by
  rcases hp with rfl | rfl
  · unfold wrapRaw unwrapRaw
    rw [if_pos rfl, if_pos rfl, List.append_assoc,
      unpack_pack _ _ (by have := hhl d; omega)]
    simp only [drop_pack]
    rw [List.take_left, List.drop_left, hsinv d]
  · unfold wrapRaw unwrapRaw
    rw [if_neg (by decide), if_neg (by decide), drop_pack, hcinv d]

theorem processChunks_wrapped (protocol : String) (ctx : HostContext)
    (hp : protocol = SPNEGO_CT ∨ protocol = CREDSSP_CT)
    (hsinv : ∀ d, ctx.sunwrap (ctx.swrap d).1 (ctx.swrap d).2 = d)
    (hcinv : ∀ d, ctx.cunwrap (ctx.cwrap d) = d)
    (hhl : ∀ d, (ctx.swrap d).1.length < 2147483648) :
    ∀ cs : List Bytes,
      processChunks protocol ctx (cs.map fun c => (c.length, wrapRaw protocol ctx c)) =
        .ok cs.flatten := by
  intro cs
  induction cs with
  | nil => rfl
  | cons c rest ih =>
    simp only [List.map_cons, processChunks]
    rw [unwrap_wrapRaw protocol ctx hp hsinv hcinv hhl c]
    rw [ih]
    simp only [List.flatten_cons, ne_eq, not_true_eq_false, if_false, ite_false]
    rfl

theorem wrapBody_eq (protocol : String) (ctx : HostContext) (cs : List Bytes) :
    (cs.map (wrap_message_chunk protocol ctx)).flatten =
      envBody protocol (cs.map fun c => (c.length, wrapRaw protocol ctx c)) := by
  rw [envBody, List.map_map]
  rfl

/-- C1 (amended).  For every payload and both mechanisms,
`unwrap_message (wrap_message payload)` returns exactly the original payload,
provided the host context's unwrap inverts its wrap, SPNEGO header blobs fit
in a 32-bit length field, and — the amendment forced by `C1_counterexample` —
the framed per-chunk binary blobs contain neither the `'-'` (0x2D) nor the
`'\t'` (0x09) byte, so they cannot collide with the MIME boundary or the
octet-stream marker that `unwrap_message` strips. -/
theorem wrap_unwrap_roundtrip (protocol : String) (ctx : HostContext)
    (hp : protocol = SPNEGO_CT ∨ protocol = CREDSSP_CT)
    (hsinv : ∀ d, ctx.sunwrap (ctx.swrap d).1 (ctx.swrap d).2 = d)
    (hcinv : ∀ d, ctx.cunwrap (ctx.cwrap d) = d)
    (hhl : ∀ d, (ctx.swrap d).1.length < 2147483648)
    (hblob : ∀ d, 45 ∉ wrapRaw protocol ctx d ∧ 9 ∉ wrapRaw protocol ctx d)
    (message : Bytes) :
    unwrap_message protocol ctx (wrap_message protocol ctx message).2 = .ok message := by
  have hyg : ∀ cs : List Bytes,
      ∀ p ∈ (cs.map fun c => (c.length, wrapRaw protocol ctx c)), wHyg p.2 := by
    intro cs p hp'
    obtain ⟨c, _, rfl⟩ := List.mem_map.mp hp'
    exact ⟨(hblob c).1, (hblob c).2, wrapRaw_length protocol ctx c⟩
  unfold wrap_message
  by_cases hc : protocol = CREDSSP_CT ∧ 16384 < message.length
  · rw [if_pos hc]
    show unwrap_message protocol ctx
      (((chunksOf message).map (wrap_message_chunk protocol ctx)).flatten ++ termB) = _
    rw [wrapBody_eq]
    have hne : ((chunksOf message).map fun c => (c.length, wrapRaw protocol ctx c)) ≠ [] := by
      simp only [ne_eq, List.map_eq_nil_iff]
      exact chunksOf_ne_nil (by intro hm; rw [hm] at hc; simp at hc)
    rw [unwrap_envelope protocol ctx hp _ hne (hyg _),
      processChunks_wrapped protocol ctx hp hsinv hcinv hhl, chunksOf_flatten]
  · rw [if_neg hc]
    show unwrap_message protocol ctx (wrap_message_chunk protocol ctx message ++ termB) = _
    have hbody : wrap_message_chunk protocol ctx message ++ termB =
        envBody protocol ([message].map fun c => (c.length, wrapRaw protocol ctx c)) ++ termB := by
      simp [envBody, wrap_message_chunk]
    rw [hbody, unwrap_envelope protocol ctx hp _ (by simp) (hyg _),
      processChunks_wrapped protocol ctx hp hsinv hcinv hhl]
    simp

theorem shift_inv (d : Bytes) : shiftDec (shiftEnc d) = d := by
  unfold shiftDec shiftEnc
  rw [List.map_map]
  have hcomp : ((fun b => b - 256) ∘ fun b => b + 256) = fun b : Nat => b := by
    funext b
    simp
  rw [hcomp]
  exact List.map_id d

theorem shiftCtx_blob (d : Bytes) :
    45 ∉ wrapRaw SPNEGO_CT shiftCtx d ∧ 9 ∉ wrapRaw SPNEGO_CT shiftCtx d := by
  have hblob : wrapRaw SPNEGO_CT shiftCtx d = [0, 0, 0, 0] ++ shiftEnc d := by
    simp [wrapRaw, shiftCtx, packI32LE]
  rw [hblob]
  constructor <;>
  · intro hm
    rcases List.mem_append.mp hm with h | h
    · simp at h
    · obtain ⟨b, _, hb⟩ := List.mem_map.mp h
      omega

theorem wrap_unwrap_roundtrip_witness :
    unwrap_message SPNEGO_CT shiftCtx (wrap_message SPNEGO_CT shiftCtx [0, 1, 2]).2 =
      .ok [0, 1, 2] :=
  wrap_unwrap_roundtrip SPNEGO_CT shiftCtx (Or.inl rfl)
    (fun d => shift_inv d)
    (fun d => shift_inv d)
    (fun d => by simp [shiftCtx])
    shiftCtx_blob
    [0, 1, 2]

/-- C1 (counterexample to the claim as stated).  The identity context
satisfies the claim's only hypothesis — its unwrap operations exactly invert
its wrap operations — yet wrapping the 41-byte payload that happens to equal
the octet-stream marker line and unwrapping it does not return the payload:
`unwrap_message` deletes the marker occurrence inside the ciphertext and
fails with a length mismatch (actual 0, expected 41). -/
theorem C1_counterexample :
    (∀ d, idCtx.sunwrap (idCtx.swrap d).1 (idCtx.swrap d).2 = d) ∧
    (∀ d, idCtx.cunwrap (idCtx.cwrap d) = d) ∧
    unwrap_message SPNEGO_CT idCtx (wrap_message SPNEGO_CT idCtx octetMarker).2 =
      .error (.lengthMismatch 0 41) := by
  refine ⟨fun d => rfl, fun d => rfl, ?_⟩
  decide

theorem unwrapRaw_some (protocol : String) (ctx : HostContext) {w : Bytes}
    (hw : 4 ≤ w.length) : ∃ u, unwrapRaw protocol ctx w = some u := by
  obtain ⟨b0, r0, rfl⟩ :=
    List.exists_cons_of_ne_nil (l := w) (by intro h; rw [h] at hw; simp at hw)
  obtain ⟨b1, r1, rfl⟩ :=
    List.exists_cons_of_ne_nil (l := r0) (by intro h; rw [h] at hw; simp at hw)
  obtain ⟨b2, r2, rfl⟩ :=
    List.exists_cons_of_ne_nil (l := r1) (by intro h; rw [h] at hw; simp at hw)
  obtain ⟨b3, r3, rfl⟩ :=
    List.exists_cons_of_ne_nil (l := r2) (by intro h; rw [h] at hw; simp at hw)
  unfold unwrapRaw
  by_cases hsp : protocol = SPNEGO_CT
  · rw [if_pos hsp]
    exact ⟨_, rfl⟩
  · rw [if_neg hsp]
    exact ⟨_, rfl⟩

theorem processChunks_all_ok (protocol : String) (ctx : HostContext) :
    ∀ L : List (Nat × Bytes), (∀ p ∈ L, wHyg p.2) →
      (∀ p ∈ L, ((unwrapRaw protocol ctx p.2).getD []).length = p.1) →
      processChunks protocol ctx L =
        .ok ((L.map (fun p => (unwrapRaw protocol ctx p.2).getD [])).flatten) := by
  intro L
  induction L with
  | nil => intro _ _; rfl
  | cons p rest ih =>
    intro hyg hok
    obtain ⟨n, w⟩ := p
    obtain ⟨u, hu⟩ := unwrapRaw_some protocol ctx (hyg (n, w) (by simp)).2.2
    simp only [processChunks, hu]
    have hlen : u.length = n := by
      have := hok (n, w) (by simp)
      simpa [hu] using this
    rw [if_neg (by simp [hlen])]
    rw [ih (fun p hp => hyg p (by simp [hp])) (fun p hp => hok p (by simp [hp]))]
    simp only [List.map_cons, List.flatten_cons, hu, Option.getD_some]
    rfl

theorem processChunks_mismatch (protocol : String) (ctx : HostContext) :
    ∀ L : List (Nat × Bytes), (∀ p ∈ L, wHyg p.2) →
      (∃ p ∈ L, ((unwrapRaw protocol ctx p.2).getD []).length ≠ p.1) →
      ∃ a e, a ≠ e ∧ processChunks protocol ctx L = .error (.lengthMismatch a e) := by
  intro L
  induction L with
  | nil => intro _ h; simp at h
  | cons p rest ih =>
    intro hyg hex
    obtain ⟨n, w⟩ := p
    obtain ⟨u, hu⟩ := unwrapRaw_some protocol ctx (hyg (n, w) (by simp)).2.2
    by_cases hhead : u.length = n
    · have hrest : ∃ p ∈ rest, ((unwrapRaw protocol ctx p.2).getD []).length ≠ p.1 := by
        obtain ⟨q, hq, hne⟩ := hex
        rcases List.mem_cons.mp hq with rfl | hq'
        · exact absurd (by simpa [hu] using hhead) hne
        · exact ⟨q, hq', hne⟩
      obtain ⟨a, e, hae, herr⟩ :=
        ih (fun p hp => hyg p (by simp [hp])) hrest
      refine ⟨a, e, hae, ?_⟩
      simp only [processChunks, hu]
      rw [if_neg (by simp [hhead]), herr]
      rfl
    · refine ⟨u.length, n, hhead, ?_⟩
      simp only [processChunks, hu]
      rw [if_pos hhead]

/-- C4.  For every well-formed framed envelope — one assembled from
declared-length/binary-blob chunk pairs whose blobs are byte-hygienic —
`unwrap_message` raises the length-mismatch error (carrying both the actual
recovered length and the expected declared length, which differ) if and only
if some chunk's recovered plaintext length differs from the length declared
in that chunk's `Length=` header field; when every chunk's lengths agree it
returns the concatenation of the recovered chunks in header order with no
error. -/
theorem C4_length_check (protocol : String) (ctx : HostContext)
    (hp : protocol = SPNEGO_CT ∨ protocol = CREDSSP_CT)
    (L : List (Nat × Bytes)) (hL : L ≠ []) (hyg : ∀ p ∈ L, wHyg p.2) :
    ((∀ p ∈ L, ((unwrapRaw protocol ctx p.2).getD []).length = p.1) →
      unwrap_message protocol ctx (envBody protocol L ++ termB) =
        .ok ((L.map (fun p => (unwrapRaw protocol ctx p.2).getD [])).flatten)) ∧
    ((∃ p ∈ L, ((unwrapRaw protocol ctx p.2).getD []).length ≠ p.1) →
      ∃ a e, a ≠ e ∧ unwrap_message protocol ctx (envBody protocol L ++ termB) =
        .error (.lengthMismatch a e)) := by
  constructor
  · intro hok
    rw [unwrap_envelope protocol ctx hp L hL hyg]
    exact processChunks_all_ok protocol ctx L hyg hok
  · intro hex
    obtain ⟨a, e, hae, herr⟩ := processChunks_mismatch protocol ctx L hyg hex
    exact ⟨a, e, hae, by rw [unwrap_envelope protocol ctx hp L hL hyg]; exact herr⟩

theorem C4_length_check_witness :
    unwrap_message SPNEGO_CT idCtx
        (envBody SPNEGO_CT [(3, [0, 0, 0, 0, 1, 2, 3])] ++ termB) =
      .ok [1, 2, 3] := by
  have h := (C4_length_check SPNEGO_CT idCtx (Or.inl rfl) [(3, [0, 0, 0, 0, 1, 2, 3])]
    (by decide)
    (fun p hp => by rcases List.mem_singleton.mp hp with rfl; exact ⟨by decide, by decide, by decide⟩)).1
    (fun p hp => by rcases List.mem_singleton.mp hp with rfl; decide)
  exact h.trans (by decide)


theorem chunksAux_step (f : Nat) (c : Nat) (rest : Bytes) :
    chunksAux (Nat.succ f) (c :: rest) =
      (c :: rest).take 16384 :: chunksAux f ((c :: rest).drop 16384) := rfl

theorem chunksAux_nil (f : Nat) : chunksAux f [] = [] := by cases f <;> rfl

theorem chunksAux_small :
    ∀ f (s : Bytes), s ≠ [] → s.length ≤ 16384 → 1 ≤ f → chunksAux f s = [s] := by
  intro f s hne hlen hf
  cases f with
  | zero => omega
  | succ f =>
    obtain ⟨c, rest, rfl⟩ := List.exists_cons_of_ne_nil hne
    rw [chunksAux_step, List.take_of_length_le hlen,
      List.drop_eq_nil_of_le (by omega), chunksAux_nil]

theorem chunksOf_two {m : Bytes} (h : m.length = 16385) :
    chunksOf m = [m.take 16384, m.drop 16384] := by
  obtain ⟨c, rest, rfl⟩ :=
    List.exists_cons_of_ne_nil (l := m) (by intro hm; rw [hm] at h; simp at h)
  have hrest : rest.length = 16384 := by simp at h; omega
  have hdlen : ((c :: rest).drop 16384).length = 1 := by
    rw [List.length_drop]
    simp [hrest]
  show chunksAux (c :: rest).length (c :: rest) = _
  rw [List.length_cons, chunksAux_step]
  rw [chunksAux_small rest.length ((c :: rest).drop 16384)
    (by intro hd; rw [hd] at hdlen; simp at hdlen)
    (by omega)
    (by omega)]

theorem take_replicate_16385 :
    (List.replicate 16385 (0 : Nat)).take 16384 = List.replicate 16384 0 := by
  rw [List.take_replicate]
  congr 1

theorem drop_replicate_16385 :
    (List.replicate 16385 (0 : Nat)).drop 16384 = [0] := by
  rw [List.drop_replicate]
  rfl

theorem wrap_message_single (protocol : String) (ctx : HostContext) (m : Bytes)
    (h : ¬(protocol = CREDSSP_CT ∧ 16384 < m.length)) :
    wrap_message protocol ctx m =
      ("multipart/encrypted", wrap_message_chunk protocol ctx m ++ termB) := by
  unfold wrap_message
  rw [if_neg h]

theorem wrap_message_multi (protocol : String) (ctx : HostContext) (m : Bytes)
    (hpro : protocol = CREDSSP_CT) (hlen : 16384 < m.length) :
    wrap_message protocol ctx m =
      ("multipart/x-multi-encrypted",
        ((chunksOf m).map (wrap_message_chunk protocol ctx)).flatten ++ termB) := by
  unfold wrap_message
  rw [if_pos ⟨hpro, hlen⟩]

/-- C5.  Under the CredSSP (TLS-based) mechanism a payload of exactly 16 KiB
is wrapped as a single chunk with outer content type `multipart/encrypted`;
a payload of 16 KiB + 1 bytes is split into exactly two chunks (16384 bytes
and 1 byte) with outer content type `multipart/x-multi-encrypted`; under the
SPNEGO mechanism no payload of any size is ever chunked. -/
theorem C5_chunk_boundary :
    (∀ ctx : HostContext, ∀ m : Bytes,
      wrap_message SPNEGO_CT ctx m =
        ("multipart/encrypted", wrap_message_chunk SPNEGO_CT ctx m ++ termB)) ∧
    (∀ ctx : HostContext,
      wrap_message CREDSSP_CT ctx (List.replicate 16384 0) =
        ("multipart/encrypted",
          wrap_message_chunk CREDSSP_CT ctx (List.replicate 16384 0) ++ termB)) ∧
    (∀ ctx : HostContext,
      wrap_message CREDSSP_CT ctx (List.replicate 16385 0) =
        ("multipart/x-multi-encrypted",
          wrap_message_chunk CREDSSP_CT ctx (List.replicate 16384 0) ++
            (wrap_message_chunk CREDSSP_CT ctx [0] ++ termB))) ∧
    (chunksOf (List.replicate 16385 (0 : Nat))).length = 2 := by
  refine ⟨?_, ?_, ?_, ?_⟩
  · intro ctx m
    exact wrap_message_single _ _ _ (fun hcon => absurd hcon.1 (by decide))
  · intro ctx
    exact wrap_message_single _ _ _
      (fun hcon => absurd hcon.2 (by rw [List.length_replicate]; omega))
  · intro ctx
    rw [wrap_message_multi CREDSSP_CT ctx _ rfl (by rw [List.length_replicate]; omega),
      chunksOf_two (by rw [List.length_replicate]),
      take_replicate_16385, drop_replicate_16385]
    simp only [List.map_cons, List.map_nil, List.flatten_cons, List.flatten_nil,
      List.append_nil, List.append_assoc]
  · rw [chunksOf_two (by rw [List.length_replicate])]
    rfl

/-- C3 (counterexample to the claim as stated).  Against the descriptor
`(None:0, Read:1, Write:2, Execute:4)` the decode loop of
`PSEnumBase.__str__` emits labels in descending value order, so decoding 3
yields `"Write, Read"`, not the claimed `"Read, Write"`. -/
theorem C3_counterexample : PSEnumBase.str rwDescriptor 3 ≠ "Read, Write" := by decide

/-- C3 (amended).  Against the flags descriptor
`(None:0, Read:1, Write:2, Execute:4)`: encoding `"Read, Write"` yields 3;
decoding 3 yields `"Write, Read"` (descending value order); decoding 5
yields `"Execute, Read"` (4 and 1 are both defined flags, so no decimal
residue appears). -/
theorem C3_scenario :
    PSEnumBase.new rwDescriptor ("Read, Write".toList) = .ok 3 ∧
    PSEnumBase.str rwDescriptor 3 = "Write, Read" ∧
    PSEnumBase.str rwDescriptor 5 = "Execute, Read" :=
  ⟨by decide, by decide, by decide⟩

/-- C8 (counterexample to the claim as stated).  The metadata record that
`PSObjectMeta.__init__` installs — the one every freshly constructed
`PSObject` carries — has an empty type-name sequence, so the invariant
"type-name sequence is never empty for a non-null typed value carrying
metadata" does not hold for every constructing operation. -/
theorem C8_counterexample : PSObjectMeta.init.type_names = [] := rfl

/-- C8 (amended).  The enum initializer `PSEnumBase.__init__` establishes a
non-empty type-name sequence (the four-element chain ending in
`System.Object`); the generic `PSObjectMeta` constructor, by contrast,
starts with an empty sequence that deserialization must populate. -/
theorem C8_enum_type_names (type_name : String) :
    (psEnumInitMeta type_name).type_names =
      [type_name, "System.Enum", "System.ValueType", "System.Object"] ∧
    (psEnumInitMeta type_name).type_names ≠ [] ∧
    PSObjectMeta.init.type_names = [] :=
  ⟨rfl, by simp [psEnumInitMeta], rfl⟩

/-- C9.  Assigning the `psobject` metadata attribute of a `PSGuid` always
succeeds (bypassing the UUID immutability guard), stores the metadata so it
is subsequently readable, and leaves the underlying GUID value unchanged;
assigning any other attribute follows the guarded path and fails with the
UUID immutability `TypeError`. -/
theorem C9_guid_setattr (g : PSGuid) (v : PSObjectMeta) :
    (PSGuid.setattr g "psobject" v = .ok { g with psobject := v }) ∧
    ({ g with psobject := v } : PSGuid).psobject = v ∧
    ({ g with psobject := v } : PSGuid).uuidVal = g.uuidVal ∧
    (∀ name : String, name ≠ "psobject" →
      PSGuid.setattr g name v = .error "UUID objects are immutable") := by
  refine ⟨?_, rfl, rfl, ?_⟩
  · unfold PSGuid.setattr
    rw [if_pos rfl]
  · intro name hn
    unfold PSGuid.setattr
    rw [if_neg hn]

theorem C9_guid_setattr_witness :
    PSGuid.setattr ⟨7, PSObjectMeta.init⟩ "psobject" (psEnumInitMeta "T") =
      .ok ⟨7, psEnumInitMeta "T"⟩ ∧
    PSGuid.setattr ⟨7, PSObjectMeta.init⟩ "version" (psEnumInitMeta "T") =
      .error "UUID objects are immutable" := by
  have h := C9_guid_setattr ⟨7, PSObjectMeta.init⟩ (psEnumInitMeta "T")
  exact ⟨h.1, h.2.2.2 "version" (by decide)⟩

/-- C10.  The unwrap step deletes every occurrence of the octet-stream
marker from the chunk payload, not only the leading marker line: for the
identity context the wrap step emits the blob `packI32LE 0 ++ octetMarker`
(a ciphertext that happens to contain the marker), and cleaning the chunk
payload (marker line plus blob) removes both occurrences, so the bytes
passed to the mechanism-specific unwrap differ from the bytes the wrap step
emitted. -/
theorem C10_marker_removed_everywhere :
    wrapRaw SPNEGO_CT idCtx octetMarker = packI32LE 0 ++ octetMarker ∧
    replaceSeq octetMarker [] (octetMarker ++ wrapRaw SPNEGO_CT idCtx octetMarker) =
      packI32LE 0 ∧
    replaceSeq octetMarker [] (octetMarker ++ wrapRaw SPNEGO_CT idCtx octetMarker) ≠
      wrapRaw SPNEGO_CT idCtx octetMarker :=
  ⟨by decide, by decide, by decide⟩

theorem encodeFlagsGo_ok (m : List (String × Nat)) :
    ∀ (ts : List (List Char)) (acc : Nat),
      (∀ t ∈ ts, (enumLookup m (String.mk (stripStr t))).isSome) →
      encodeFlagsGo m ts acc =
        .ok (ts.foldl (fun a t => a ||| (enumLookup m (String.mk (stripStr t))).getD 0) acc) := by
  intro ts
  induction ts with
  | nil => intro acc _; rfl
  | cons t ts' ih =>
    intro acc hall
    have ht := hall t (by simp)
    obtain ⟨v, hv⟩ := Option.isSome_iff_exists.mp ht
    simp only [encodeFlagsGo, hv, List.foldl_cons, Option.getD_some]
    exact ih (acc ||| v) (fun s hs => hall s (by simp [hs]))

theorem encodeFlagsGo_err (m : List (String × Nat)) :
    ∀ (ts : List (List Char)) (acc : Nat),
      (∃ t ∈ ts, enumLookup m (String.mk (stripStr t)) = none) →
      ∃ tok, encodeFlagsGo m ts acc = .error (.invalidLabel tok (m.map Prod.fst)) := by
  intro ts
  induction ts with
  | nil => intro acc h; simp at h
  | cons t ts' ih =>
    intro acc hex
    cases hv : enumLookup m (String.mk (stripStr t)) with
    | none => exact ⟨String.mk (stripStr t), by simp only [encodeFlagsGo, hv]⟩
    | some v =>
      have hrest : ∃ s ∈ ts', enumLookup m (String.mk (stripStr s)) = none := by
        obtain ⟨s, hs, hn⟩ := hex
        rcases List.mem_cons.mp hs with rfl | hs'
        · exact absurd hn (by simp [hv])
        · exact ⟨s, hs', hn⟩
      obtain ⟨tok, htok⟩ := ih (acc ||| v) hrest
      exact ⟨tok, by simp only [encodeFlagsGo, hv]; exact htok⟩

/-- C7.  For every flag-enum mapping, encoding a symbolic string splits it
on commas, trims whitespace per token, and returns the bitwise OR of the
tokens' mapped values; it fails with the invalid-label error (naming the
offending token and listing the valid labels) if and only if some token is
not a label of the descriptor; when every token maps to 0 the result is the
value 0. -/
theorem C7_encode_flags (m : List (String × Nat)) (value : List Char) :
    ((∀ t ∈ splitOnSeq [','] value, (enumLookup m (String.mk (stripStr t))).isSome) →
      encodeFlags m value =
        .ok ((splitOnSeq [','] value).foldl
          (fun a t => a ||| (enumLookup m (String.mk (stripStr t))).getD 0) 0)) ∧
    ((∃ t ∈ splitOnSeq [','] value, enumLookup m (String.mk (stripStr t)) = none) ↔
      (∃ tok, encodeFlags m value = .error (.invalidLabel tok (m.map Prod.fst)))) := by
  constructor
  · intro hall
    exact encodeFlagsGo_ok m _ 0 hall
  · constructor
    · intro hex
      exact encodeFlagsGo_err m _ 0 hex
    · intro ⟨tok, htok⟩
      by_contra hno
      push_neg at hno
      have hall : ∀ t ∈ splitOnSeq [','] value,
          (enumLookup m (String.mk (stripStr t))).isSome := by
        intro t ht
        cases hv : enumLookup m (String.mk (stripStr t)) with
        | none => exact absurd hv (hno t ht)
        | some v => rfl
      rw [encodeFlags, encodeFlagsGo_ok m _ 0 hall] at htok
      exact Except.noConfusion htok

theorem C7_encode_flags_witness :
    encodeFlags [("None", 0), ("Read", 1)] ("Read, None".toList) = .ok 1 := by
  have h := (C7_encode_flags [("None", 0), ("Read", 1)] ("Read, None".toList)).1 (by decide)
  exact h.trans (by decide)

theorem greedy_foldl (m : List (String × Nat)) :
    ∀ (cands : List Nat) (r : Nat) (acc : List String),
      cands.foldl
        (fun (p : List String × Nat) v =>
          if v &&& p.2 = v then
            (p.1 ++ [(invLookup m v).getD ""], p.2 ^^^ (p.2 &&& v))
          else p)
        (acc, r) =
      (acc ++ (greedyFlags m cands r).1, (greedyFlags m cands r).2) := by
  intro cands
  induction cands with
  | nil => intro r acc; simp [greedyFlags]
  | cons v vs ih =>
    intro r acc
    by_cases hc : r &&& v = v
    · have hc' : v &&& r = v := by rw [Nat.land_comm]; exact hc
      simp only [List.foldl_cons, if_pos hc', greedyFlags, if_pos hc]
      rw [ih (r ^^^ (r &&& v)) (acc ++ [(invLookup m v).getD ""])]
      simp
    · have hc' : ¬ v &&& r = v := by rw [Nat.land_comm]; exact hc
      simp only [List.foldl_cons, if_neg hc', greedyFlags, if_neg hc]
      exact ih r acc

/-- C6.  For every enum descriptor and every (non-negative) integer, the
decode operation `PSEnumBase.__str__` behaves exactly as the specification
describes it: non-flag enums look the integer up in the inverted mapping
and fall back to its decimal rendering (never failing); flag enums return
the exact label when defined, and otherwise greedily emit the labels of
candidate values in descending numeric order (zero excluded) whose bits are
fully contained in the remaining value, clearing those bits, append a
non-zero residual as a decimal string, join with `", "`, and fall back to
the decimal form of the original integer when nothing was emitted. -/
theorem C6_decode (d : EnumDescriptor) (n : Nat) :
    PSEnumBase.str d n = specDecode d n := by
  unfold PSEnumBase.str specDecode
  cases hf : d.isFlags with
  | false =>
    cases hinv : invLookup d.enumMap n <;> simp [hf, hinv]
  | true =>
    cases hinv : invLookup d.enumMap n with
    | some s => simp [hf, hinv]
    | none =>
      simp only [hf, hinv]
      rw [greedy_foldl d.enumMap (flagCandidates d.enumMap) n []]
      simp

theorem containsSeq_of_front_match {pat s : List Char} (h : pat <+: s) :
    containsSeq pat s = true := by
  cases s with
  | nil =>
    have : pat = [] := List.prefix_nil.mp h
    simp [containsSeq, this]
  | cons c rest => simp [containsSeq, h]

theorem contains_DES_of_3DES {s : List Char}
    (h : containsSeq ("3DES".toList) s = true) :
    containsSeq ("DES".toList) s = true := by
  induction s with
  | nil => simp [containsSeq] at h
  | cons c rest ih =>
    simp only [containsSeq, Bool.or_eq_true, decide_eq_true_eq] at h
    rcases h with h | h
    · obtain ⟨t, ht⟩ := h
      have hrest : ("DES".toList) <+: rest := by
        have : '3' :: ('D' :: 'E' :: 'S' :: t) = c :: rest := ht
        injection this with h1 h2
        exact ⟨t, h2⟩
      simp only [containsSeq, Bool.or_eq_true]
      right
      exact containsSeq_of_front_match hrest
    · simp only [containsSeq, Bool.or_eq_true]
      right
      exact ih h

/-- C2.  The CredSSP trailer-length computation is a pure function of the
plaintext length and the cipher-suite name, and it equals the
specification's description: 16 for suites matching the GCM pattern
regardless of length; otherwise `(pre_pad + padding) - len` where the hash
length comes from the trailing dash-separated token (MD5 16, SHA 20,
SHA256 32, SHA384 48, otherwise 0), `pre_pad = len + hash`, and padding is
0 for RC4 suites, `8 - pre_pad % 8` for 3DES/DES suites, and
`16 - pre_pad % 16` otherwise. -/
theorem C2_trailer (len : Nat) (cipher : List Char) :
    credssp_trailer len cipher = specTrailer len cipher := by
  unfold credssp_trailer specTrailer
  by_cases hg : matchesGCM cipher
  · rw [if_pos hg, if_pos hg]
  · rw [if_neg hg, if_neg hg]
    have h3 : (containsSeq ("DES".toList) cipher || containsSeq ("3DES".toList) cipher) =
        containsSeq ("DES".toList) cipher := by
      cases hD : containsSeq ("DES".toList) cipher
      · cases h3D : containsSeq ("3DES".toList) cipher
        · rfl
        · rw [contains_DES_of_3DES h3D] at hD
          exact absurd hD (by simp)
      · simp
    rw [h3]
